import Mathlib

/-!
# Verification of `gitalyze` (src/main.js)

A shallow embedding of the git-analytics pipeline in `src/main.js`:
the branch lister, the history walker with its commit deduplication
map, the numstat parser, the subject classifier, the composite `_id`,
the CLI defaults, and the top-level error propagation, together with
theorems settling the specification's claims about them.

JavaScript strings are modelled as Lean `String`s (lists of unicode
code points).  JavaScript's UTF-16 surrogate representation, `Date`
parsing, and IEEE-754 precision of `parseInt` beyond 2^53 are outside
the model; every operation the claims touch is code-point based.
-/

namespace Gitalyze

/-! ## JavaScript string primitives -/

/-- The character class of JavaScript's `\s` (`WhiteSpace` together with
`LineTerminator`), which is also the set trimmed by
`String.prototype.trim`. -/
def isJsSpace (c : Char) : Bool :=
  c = ' ' || c = '\t' || c = '\n' || c = '\r' || c = '\x0b' || c = '\x0c' ||
  c = '\u00A0' || c = '\u1680' || ('\u2000' ≤ c && c ≤ '\u200A') ||
  c = '\u2028' || c = '\u2029' || c = '\u202F' || c = '\u205F' ||
  c = '\u3000' || c = '\uFEFF'

/-- JavaScript's `LineTerminator` set: the positions after which a
multiline `^` anchor may match. -/
def isLineTerm (c : Char) : Bool :=
  c = '\n' || c = '\r' || c = '\u2028' || c = '\u2029'

/-- Drop `\s` characters from both ends of a character list. -/
def trimList (cs : List Char) : List Char :=
  ((cs.dropWhile isJsSpace).reverse.dropWhile isJsSpace).reverse

/-- JavaScript `String.prototype.trim`. -/
def jsTrim (s : String) : String := String.mk (trimList s.data)

/-- JavaScript `str.split(sep)` for a one-character separator, on
character lists.  Always returns a non-empty list of pieces; splitting
the empty string yields `[[]]`, as in JavaScript. -/
def splitChar (c : Char) : List Char → List (List Char)
  | [] => [[]]
  | x :: xs =>
    match splitChar c xs with
    | [] => [[x]]
    | r :: rs => if x = c then [] :: r :: rs else (x :: r) :: rs

/-- JavaScript `str.split(sep)` for a one-character separator. -/
def jsSplit (c : Char) (s : String) : List String :=
  (splitChar c s.data).map String.mk

/-! ## Branch Lister (src/main.js lines 43–50)

    git(`branch -r --format='%(refname)'`)
      .split('\n').map(trim)
      .filter(l => l.split('/').length >= 4)
      .filter(l => l.split('/')[2] == remoteName)
      .map(l => l.split('/').slice(3).join('/'))
      .filter(l => l != "HEAD")
      .sort()

JavaScript's default `sort` on strings is lexicographic; it is modelled
by insertion sort under `String`'s linear order. -/

/-- The branch-listing pipeline applied to the raw `branch -r` output. -/
def branchLister (raw remote : String) : List String :=
  List.insertionSort (· ≤ ·)
    (((((((jsSplit '\n' raw).map jsTrim).filter
        (fun l => 4 ≤ (jsSplit '/' l).length)).filter
        (fun l => (jsSplit '/' l)[2]? == some remote)).map
        (fun l => String.intercalate "/" ((jsSplit '/' l).drop 3))).filter
        (fun l => l != "HEAD")))

/-- `c4`: membership in the Branch Lister's result is exactly the
claim's condition on some trimmed input line, the result is
lexicographically sorted, and the three example refs behave as stated:
with remote `origin`, `refs/remotes/origin/feature/x` yields
`feature/x`, while `refs/remotes/origin/HEAD` and `refs/heads/main`
are excluded. -/
theorem c4_branch_lister :
    (∀ raw remote n, n ∈ branchLister raw remote ↔
      n ≠ "HEAD" ∧
      ∃ l ∈ (jsSplit '\n' raw).map jsTrim,
        4 ≤ (jsSplit '/' l).length ∧
        (jsSplit '/' l)[2]? = some remote ∧
        n = String.intercalate "/" ((jsSplit '/' l).drop 3)) ∧
    (∀ raw remote, (branchLister raw remote).Sorted (· ≤ ·)) ∧
    branchLister "refs/remotes/origin/feature/x\nrefs/remotes/origin/HEAD\nrefs/heads/main"
      "origin" = ["feature/x"] := by
  refine ⟨fun raw remote n => ?_, fun raw remote => ?_, by decide⟩
  · rw [branchLister, (List.perm_insertionSort _ _).mem_iff]
    simp only [List.mem_filter, List.mem_map, bne_iff_ne, ne_eq, beq_iff_eq,
      decide_eq_true_eq]
    constructor
    · rintro ⟨⟨l, ⟨⟨hl, hlen⟩, hrem⟩, hn⟩, hhead⟩
      exact ⟨hhead, l, hl, hlen, hrem, hn.symm⟩
    · rintro ⟨hhead, l, hl, hlen, hrem, hn⟩
      exact ⟨⟨l, ⟨⟨hl, hlen⟩, hrem⟩, hn.symm⟩, hhead⟩
  · exact List.sorted_insertionSort _ _

/-! ## History Walker (src/main.js lines 54–75)

    var commits = new Map();
    for (var branch of branches) {
        git(`rev-list --full-history ${remoteName}/${branch}`)
            .split('\n').map(trim).filter(l => l.length > 0)
            .forEach(commitHash => {
                if (commits.has(commitHash)) {
                    commits.get(commitHash).branches.push(branch);
                } else {
                    commits.set(commitHash, { repo, remote, hash, branches: [branch] });
                }
            });
    }

The JavaScript `Map` is modelled as an association list in insertion
order with unique keys; `get` returns the first entry with the key. -/

/-- The record seeded for each distinct commit hash (src/main.js 67–72). -/
structure CommitRec where
  repo : String
  remote : String
  hash : String
  branches : List String
deriving DecidableEq

/-- The commit deduplication map, in insertion order. -/
abbrev AList := List (String × CommitRec)

/-- `commits.get(h)` (also serving as `commits.has(h)` via `isSome`). -/
def mapGet (k : String) : AList → Option CommitRec
  | [] => none
  | p :: m => if p.1 = k then some p.2 else mapGet k m

/-- `commits.get(h).branches.push(branch)`: in-place update of the
record stored under key `h`. -/
def pushBranch (commitHash branch : String) (m : AList) : AList :=
  m.map (fun p =>
    if p.1 = commitHash then
      (p.1, { p.2 with branches := p.2.branches ++ [branch] })
    else p)

/-- One iteration of the `forEach` body (src/main.js 62–74). -/
def step (repoName remoteName branch : String) (m : AList) (commitHash : String) : AList :=
  match mapGet commitHash m with
  | some _ => pushBranch commitHash branch m
  | none => m ++ [(commitHash, ⟨repoName, remoteName, commitHash, [branch]⟩)]

/-- The processed `rev-list` output: split into lines, trimmed,
empty lines dropped (src/main.js 59–61). -/
def revLines (raw : String) : List String :=
  ((jsSplit '\n' raw).map jsTrim).filter (fun l => 0 < l.length)

/-- Folding one branch's `rev-list` output into the map. -/
def walkBranch (repoName remoteName branch raw : String) (m : AList) : AList :=
  (revLines raw).foldl (step repoName remoteName branch) m

/-- The whole history walk: every branch in order, starting from the
empty map.  `rev` is the oracle giving each branch's raw `rev-list`
output. -/
def walkAll (repoName remoteName : String) (bs : List String) (rev : String → String) : AList :=
  bs.foldl (fun m b => walkBranch repoName remoteName b (rev b) m) []

/-- The branch-name occurrences branch `b` contributes to the record of
commit `C`: one copy of `b` per occurrence of `C` in `b`'s processed
rev-list. -/
def contrib (rev : String → String) (C b : String) : List String :=
  List.replicate ((revLines (rev b)).count C) b

/-- Number of entries of the map holding key `k`. -/
def countKey (k : String) (m : AList) : Nat := m.countP (fun p => p.1 = k)

theorem mapGet_pushBranch (C h b : String) (m : AList) :
    mapGet C (pushBranch h b m) =
      if C = h then
        (mapGet C m).map (fun r => { r with branches := r.branches ++ [b] })
      else mapGet C m := by
  induction m with
  | nil => simp [pushBranch, mapGet]
  | cons p t ih =>
    by_cases hph : p.1 = h
    · subst hph
      by_cases hpC : p.1 = C
      · subst hpC
        simp [pushBranch, mapGet]
      · have hCp : ¬C = p.1 := fun e => hpC e.symm
        simpa [pushBranch, mapGet, hpC, hCp] using ih
    · by_cases hpC : p.1 = C
      · subst hpC
        simp [pushBranch, mapGet, hph]
      · simpa [pushBranch, mapGet, hph, hpC] using ih

theorem mapGet_append_some {C : String} {m : AList} {r : CommitRec}
    (h : mapGet C m = some r) (l : AList) : mapGet C (m ++ l) = some r := by
  induction m with
  | nil => simp [mapGet] at h
  | cons p t ih =>
    by_cases hpC : p.1 = C <;> simp_all [mapGet]

theorem mapGet_append_none {C : String} {m : AList}
    (h : mapGet C m = none) (l : AList) : mapGet C (m ++ l) = mapGet C l := by
  induction m with
  | nil => simp [mapGet]
  | cons p t ih =>
    by_cases hpC : p.1 = C <;> simp_all [mapGet]

theorem mapGet_step_self (repo remote b : String) (m : AList) (h : String) :
    mapGet h (step repo remote b m h) =
      match mapGet h m with
      | some r => some { r with branches := r.branches ++ [b] }
      | none => some ⟨repo, remote, h, [b]⟩ := by
  unfold step
  cases hm : mapGet h m with
  | some r => simp [mapGet_pushBranch, hm]
  | none => simp [mapGet_append_none hm, mapGet]

theorem mapGet_step_other {C h : String} (hne : C ≠ h) (repo remote b : String)
    (m : AList) : mapGet C (step repo remote b m h) = mapGet C m := by
  unfold step
  cases hm : mapGet h m with
  | some r => simp [mapGet_pushBranch, hne]
  | none =>
    cases hc : mapGet C m with
    | some r => simp [mapGet_append_some hc]
    | none => simp [mapGet_append_none hc, mapGet, hne.symm]

theorem mapGet_foldl_step (repo remote b C : String) (hs : List String) (m : AList) :
    mapGet C (hs.foldl (step repo remote b) m) =
      match mapGet C m with
      | some r =>
        some { r with branches := r.branches ++ List.replicate (hs.count C) b }
      | none =>
        if hs.count C = 0 then none
        else some ⟨repo, remote, C, List.replicate (hs.count C) b⟩ := by
  induction hs generalizing m with
  | nil => cases hm : mapGet C m <;> simp [hm]
  | cons x hs ih =>
    rw [List.foldl_cons, ih]
    by_cases hxC : x = C
    · subst hxC
      cases hm : mapGet x m with
      | some r =>
        rw [mapGet_step_self, hm]
        simp [List.count_cons, List.replicate_succ, List.append_assoc]
      | none =>
        rw [mapGet_step_self, hm]
        simp [List.count_cons, List.replicate_succ]
    · have hCx : C ≠ x := fun e => hxC e.symm
      rw [mapGet_step_other hCx]
      cases hm : mapGet C m with
      | some r => simp [hm, List.count_cons, hxC]
      | none => simp [hm, List.count_cons, hxC]

theorem mapGet_walkBranch (repo remote b raw C : String) (m : AList) :
    mapGet C (walkBranch repo remote b raw m) =
      match mapGet C m with
      | some r =>
        some { r with
          branches := r.branches ++ List.replicate ((revLines raw).count C) b }
      | none =>
        if (revLines raw).count C = 0 then none
        else some ⟨repo, remote, C, List.replicate ((revLines raw).count C) b⟩ := by
  unfold walkBranch
  exact mapGet_foldl_step repo remote b C (revLines raw) m

theorem mapGet_walk_fold (repo remote C : String) (rev : String → String)
    (bs : List String) (m : AList) :
    mapGet C (bs.foldl (fun m b => walkBranch repo remote b (rev b) m) m) =
      match mapGet C m with
      | some r => some { r with branches := r.branches ++ bs.flatMap (contrib rev C) }
      | none =>
        if bs.flatMap (contrib rev C) = [] then none
        else some ⟨repo, remote, C, bs.flatMap (contrib rev C)⟩ := by
  induction bs generalizing m with
  | nil => cases hm : mapGet C m <;> simp [hm]
  | cons b bs ih =>
    rw [List.foldl_cons, ih]
    cases hm : mapGet C m with
    | some r =>
      rw [mapGet_walkBranch, hm]
      simp [contrib, List.append_assoc]
    | none =>
      rw [mapGet_walkBranch, hm]
      by_cases hn : (revLines (rev b)).count C = 0
      · simp [hn, contrib]
      · simp only [hn, if_neg, ite_false, contrib, List.flatMap_cons]
        have hrep : List.replicate ((revLines (rev b)).count C) b ≠ [] := by
          cases hc : (revLines (rev b)).count C with
          | zero => exact absurd hc hn
          | succ k => simp [List.replicate_succ]
        simp [List.append_eq_nil, hrep]

theorem mapGet_walkAll (repo remote : String) (bs : List String)
    (rev : String → String) (C : String) :
    mapGet C (walkAll repo remote bs rev) =
      if bs.flatMap (contrib rev C) = [] then none
      else some ⟨repo, remote, C, bs.flatMap (contrib rev C)⟩ := by
  unfold walkAll
  rw [mapGet_walk_fold]
  rfl

theorem countKey_pushBranch (C h b : String) (m : AList) :
    countKey C (pushBranch h b m) = countKey C m := by
  unfold countKey pushBranch
  rw [List.countP_map]
  apply List.countP_congr
  intro p _
  by_cases hp : p.1 = h <;> simp [hp, Function.comp]

theorem mapGet_eq_none_iff (C : String) (m : AList) :
    mapGet C m = none ↔ countKey C m = 0 := by
  induction m with
  | nil => simp [mapGet, countKey]
  | cons p t ih =>
    by_cases hpC : p.1 = C
    · simp [mapGet, hpC, countKey, List.countP_cons]
    · have hck : countKey C (p :: t) = countKey C t := by
        simp [countKey, List.countP_cons, hpC]
      rw [hck, mapGet, if_neg hpC]
      exact ih

theorem countKey_step_le_one (repo remote b h : String) {m : AList}
    (hm : ∀ k, countKey k m ≤ 1) (k : String) :
    countKey k (step repo remote b m h) ≤ 1 := by
  unfold step
  cases hget : mapGet h m with
  | some r => rw [countKey_pushBranch]; exact hm k
  | none =>
    have happ : countKey k (m ++ [(h, ⟨repo, remote, h, [b]⟩)]) =
        countKey k m + (if h = k then 1 else 0) := by
      simp [countKey, List.countP_append, List.countP_cons]
    rw [happ]
    by_cases hk : h = k
    · subst hk
      have hz : countKey h m = 0 := (mapGet_eq_none_iff h m).mp hget
      simp [hz]
    · simp [hk]
      exact hm k

theorem foldl_preserve {α β : Type} {P : β → Prop} {f : β → α → β}
    (hf : ∀ m a, P m → P (f m a)) :
    ∀ (l : List α) (m : β), P m → P (l.foldl f m)
  | [], _, hm => hm
  | a :: l, m, hm => foldl_preserve hf l (f m a) (hf m a hm)

theorem countKey_walkAll_le_one (repo remote : String) (bs : List String)
    (rev : String → String) (k : String) :
    countKey k (walkAll repo remote bs rev) ≤ 1 := by
  have h := foldl_preserve (P := fun m : AList => ∀ k, countKey k m ≤ 1)
    (f := fun m b => walkBranch repo remote b (rev b) m)
    (fun m b hm => by
      unfold walkBranch
      exact foldl_preserve (P := fun m : AList => ∀ k, countKey k m ≤ 1)
        (fun m h hm => countKey_step_le_one repo remote b h hm) _ m hm)
    bs [] (by intro k; simp [countKey])
  exact h k

theorem mem_mapGet {p : String × CommitRec} {m : AList}
    (hp : p ∈ m) (hcnt : countKey p.1 m ≤ 1) : mapGet p.1 m = some p.2 := by
  induction m with
  | nil => cases hp
  | cons q t ih =>
    rcases List.mem_cons.mp hp with rfl | hp'
    · simp [mapGet]
    · by_cases hq : q.1 = p.1
      · exfalso
        have h1 : 0 < countKey p.1 t := by
          unfold countKey
          rw [List.countP_pos_iff]
          exact ⟨p, hp', by simp⟩
        have h2 : countKey p.1 (q :: t) = countKey p.1 t + 1 := by
          simp [countKey, List.countP_cons, hq]
        omega
      · have : countKey p.1 (q :: t) = countKey p.1 t := by
          simp [countKey, List.countP_cons, hq]
        rw [mapGet, if_neg hq]
        exact ih hp' (by omega)

theorem mapGet_some_countKey_one {C : String} {m : AList} {r : CommitRec}
    (h : mapGet C m = some r) (hle : countKey C m ≤ 1) : countKey C m = 1 := by
  have h0 : countKey C m ≠ 0 := by
    intro hz
    rw [← mapGet_eq_none_iff] at hz
    rw [h] at hz
    cases hz
  omega

/-- Every entry of the finished walk map is exactly the record the
characterisation predicts: repo and remote as configured, hash equal to
the key, and one branch occurrence per rev-list occurrence, in branch
processing order. -/
theorem mem_walkAll_eq {repo remote : String} {bs : List String}
    {rev : String → String} {p : String × CommitRec}
    (hp : p ∈ walkAll repo remote bs rev) :
    p.2 = ⟨repo, remote, p.1, bs.flatMap (contrib rev p.1)⟩ ∧
    bs.flatMap (contrib rev p.1) ≠ [] := by
  have hget := mem_mapGet hp (countKey_walkAll_le_one repo remote bs rev p.1)
  rw [mapGet_walkAll] at hget
  by_cases hL : bs.flatMap (contrib rev p.1) = []
  · rw [if_pos hL] at hget; cases hget
  · rw [if_neg hL] at hget
    exact ⟨(Option.some_inj.mp hget).symm, hL⟩

/-- `c1`: two branches sharing a commit yield exactly one map record
for it, holding both branches, and the branch multiset of that record
is permutation-invariant under reordering of the processed branches. -/
theorem c1_shared_commit (repo remote B1 B2 C : String) (bs : List String)
    (rev : String → String) (h1 : B1 ∈ bs) (h2 : B2 ∈ bs)
    (hc1 : C ∈ revLines (rev B1)) (hc2 : C ∈ revLines (rev B2)) :
    countKey C (walkAll repo remote bs rev) = 1 ∧
    ∃ r, mapGet C (walkAll repo remote bs rev) = some r ∧
      B1 ∈ r.branches ∧ B2 ∈ r.branches ∧
      ∀ bs', bs'.Perm bs → ∀ r',
        mapGet C (walkAll repo remote bs' rev) = some r' →
        r'.branches.Perm r.branches := by
  have hmem : ∀ B ∈ bs, C ∈ revLines (rev B) → B ∈ bs.flatMap (contrib rev C) := by
    intro B hB hC
    refine List.mem_flatMap.mpr ⟨B, hB, ?_⟩
    rw [contrib, List.mem_replicate]
    exact ⟨(List.count_pos_iff.mpr hC).ne', rfl⟩
  have hB1 := hmem B1 h1 hc1
  have hB2 := hmem B2 h2 hc2
  have hL : bs.flatMap (contrib rev C) ≠ [] := List.ne_nil_of_mem hB1
  have hget : mapGet C (walkAll repo remote bs rev) =
      some ⟨repo, remote, C, bs.flatMap (contrib rev C)⟩ := by
    rw [mapGet_walkAll, if_neg hL]
  refine ⟨mapGet_some_countKey_one hget (countKey_walkAll_le_one repo remote bs rev C),
    ⟨repo, remote, C, bs.flatMap (contrib rev C)⟩, hget, hB1, hB2, ?_⟩
  intro bs' hperm r' hget'
  have hLperm : (bs'.flatMap (contrib rev C)).Perm (bs.flatMap (contrib rev C)) :=
    hperm.flatMap_right (contrib rev C)
  have hL' : bs'.flatMap (contrib rev C) ≠ [] := by
    intro hnil
    exact hL (List.eq_nil_of_length_eq_zero (hLperm.length_eq ▸ hnil ▸ rfl))
  rw [mapGet_walkAll, if_neg hL'] at hget'
  have : r' = ⟨repo, remote, C, bs'.flatMap (contrib rev C)⟩ :=
    (Option.some_inj.mp hget').symm
  rw [this]
  exact hLperm

/-- The branch oracle used by the concrete walk-map witnesses: branch
`a` reaches commits `h1` and `h2`, branch `b` reaches only `h2`. -/
def revW : String → String := fun b => if b = "a" then "h1\nh2" else "h2"

/-- Witness for `c1_shared_commit` at a concrete two-branch history. -/
theorem c1_shared_commit_witness :
    countKey "h2" (walkAll "repo" "origin" ["a", "b"] revW) = 1 ∧
    ∃ r, mapGet "h2" (walkAll "repo" "origin" ["a", "b"] revW) = some r ∧
      "a" ∈ r.branches ∧ "b" ∈ r.branches ∧
      ∀ bs', bs'.Perm ["a", "b"] → ∀ r',
        mapGet "h2" (walkAll "repo" "origin" bs' revW) = some r' →
        r'.branches.Perm r.branches :=
  c1_shared_commit "repo" "origin" "a" "b" "h2" ["a", "b"] revW
    (by decide) (by decide) (by decide) (by decide)

/-- `c6`: every record in the finished walk map has a non-empty branch
list, its hash is its key, and each listed branch is one of the walked
branches whose processed rev-list contained that hash. -/
theorem c6_branches_invariant (repo remote : String) (bs : List String)
    (rev : String → String) (p : String × CommitRec)
    (hp : p ∈ walkAll repo remote bs rev) :
    p.2.branches ≠ [] ∧ p.2.hash = p.1 ∧
    ∀ b ∈ p.2.branches, b ∈ bs ∧ p.2.hash ∈ revLines (rev b) := by
  obtain ⟨heq, hL⟩ := mem_walkAll_eq hp
  refine ⟨by rw [heq]; exact hL, by rw [heq], ?_⟩
  intro b hb
  rw [heq] at hb
  simp only at hb
  obtain ⟨b', hb', hbc⟩ := List.mem_flatMap.mp hb
  have hbb : b = b' := List.eq_of_mem_replicate hbc
  subst hbb
  have hcnt : (revLines (rev b)).count p.1 ≠ 0 := (List.mem_replicate.mp hbc).1
  refine ⟨hb', ?_⟩
  rw [heq]
  exact List.count_pos_iff.mp (Nat.pos_of_ne_zero hcnt)

/-- Witness for `c6_branches_invariant` at the concrete history. -/
theorem c6_branches_invariant_witness :
    (("h2", CommitRec.mk "repo" "origin" "h2" ["a", "b"]).2.branches ≠ []) ∧
    ("h2", CommitRec.mk "repo" "origin" "h2" ["a", "b"]).2.hash =
      ("h2", CommitRec.mk "repo" "origin" "h2" ["a", "b"]).1 ∧
    ∀ b ∈ ("h2", CommitRec.mk "repo" "origin" "h2" ["a", "b"]).2.branches,
      b ∈ ["a", "b"] ∧
      ("h2", CommitRec.mk "repo" "origin" "h2" ["a", "b"]).2.hash ∈
        revLines (revW b) :=
  c6_branches_invariant "repo" "origin" ["a", "b"] revW
    ("h2", CommitRec.mk "repo" "origin" "h2" ["a", "b"]) (by decide)

theorem flatMap_contrib_eq_filter (rev : String → String) (C : String)
    {bs : List String} (hcnt : ∀ b ∈ bs, (revLines (rev b)).count C ≤ 1) :
    bs.flatMap (contrib rev C) =
      bs.filter (fun b => C ∈ revLines (rev b)) := by
  induction bs with
  | nil => rfl
  | cons b bs ih =>
    have hb := hcnt b (List.mem_cons_self b bs)
    rw [List.flatMap_cons, List.filter_cons,
      ih (fun x hx => hcnt x (List.mem_cons_of_mem b hx))]
    by_cases hmem : C ∈ revLines (rev b)
    · have h1 : (revLines (rev b)).count C = 1 :=
        Nat.le_antisymm hb (List.count_pos_iff.mpr hmem)
      simp [contrib, h1, hmem]
    · have h0 : (revLines (rev b)).count C = 0 := List.count_eq_zero.mpr hmem
      simp [contrib, h0, hmem]

/-- `c10`: when the walked branch list is strictly sorted and every
processed rev-list is duplicate-free (as git guarantees), each record's
branch list is duplicate-free and lexicographically sorted. -/
theorem c10_branches_sorted_nodup (repo remote : String) (bs : List String)
    (rev : String → String) (hsort : bs.Sorted (· < ·))
    (hrev : ∀ b ∈ bs, (revLines (rev b)).Nodup)
    (p : String × CommitRec) (hp : p ∈ walkAll repo remote bs rev) :
    p.2.branches.Nodup ∧ p.2.branches.Sorted (· ≤ ·) := by
  obtain ⟨heq, -⟩ := mem_walkAll_eq hp
  have hcnt : ∀ b ∈ bs, (revLines (rev b)).count p.1 ≤ 1 := fun b hb =>
    List.nodup_iff_count_le_one.mp (hrev b hb) p.1
  have hfil : p.2.branches = bs.filter (fun b => p.1 ∈ revLines (rev b)) := by
    rw [heq]
    exact flatMap_contrib_eq_filter rev p.1 hcnt
  have hsf : (bs.filter (fun b => p.1 ∈ revLines (rev b))).Sorted (· < ·) :=
    List.Pairwise.filter _ hsort
  rw [hfil]
  exact ⟨hsf.nodup, hsf.imp le_of_lt⟩

/-- Witness for `c10_branches_sorted_nodup` at the concrete history. -/
theorem c10_branches_sorted_nodup_witness :
    ("h2", CommitRec.mk "repo" "origin" "h2" ["a", "b"]).2.branches.Nodup ∧
    ("h2", CommitRec.mk "repo" "origin" "h2" ["a", "b"]).2.branches.Sorted (· ≤ ·) :=
  c10_branches_sorted_nodup "repo" "origin" ["a", "b"] revW
    (by
      simp only [List.sorted_cons, List.mem_singleton, forall_eq,
        List.sorted_singleton, and_true, String.lt_iff_toList_lt]
      decide)
    (by decide)
    ("h2", CommitRec.mk "repo" "origin" "h2" ["a", "b"]) (by decide)

/-! ## Numstat parser (src/main.js lines 105–120)

    git(`show --format='' --numstat ${commitHash}`)
        .split('\n').map(trim).filter(l => l.length > 0)
        .map(l => l.split('\t').map(i => i.trim()))
        .map(l => ({
            path: l[2],
            insertions: /^\d+$/.test(l[0]) ? parseInt(l[0]) : null,
            deletions: /^\d+$/.test(l[1]) ? parseInt(l[1]) : null
        }))
    total = { insertions: reduce((i, e) => i + (e.insertions || 0), 0), ... }
-/

/-- One per-file change record.  `path` is `Option` because `l[2]` is
`undefined` on a line with fewer than three tab-separated fields. -/
structure FileStat where
  path : Option String
  insertions : Option Nat
  deletions : Option Nat
deriving DecidableEq

/-- `/^\d+$/.test(f) ? parseInt(f) : null`: an integer exactly for a
non-empty all-digit field, `null` otherwise. -/
def parseCount (f : String) : Option Nat :=
  if 0 < f.length ∧ f.data.all Char.isDigit then
    some (f.data.foldl (fun n c => n * 10 + (c.toNat - 48)) 0)
  else none

/-- One parsed numstat line: tab-split fields, each trimmed
(src/main.js 110–115). -/
def parseFileLine (l : String) : FileStat :=
  let fs := (jsSplit '\t' l).map jsTrim
  { path := fs[2]?
  , insertions := match fs[0]? with | some f => parseCount f | none => none
  , deletions := match fs[1]? with | some f => parseCount f | none => none }

/-- The `stats` object: per-file records plus totals. -/
structure Stats where
  file : List FileStat
  totalInsertions : Nat
  totalDeletions : Nat
deriving DecidableEq

/-- The full numstat parse (src/main.js 105–120): split into lines,
trim each line, drop empty lines, parse each, then total the counts
with `null` contributing zero (`e.insertions || 0`). -/
def parseStats (raw : String) : Stats :=
  let file := (((jsSplit '\n' raw).map jsTrim).filter
      (fun l => 0 < l.length)).map parseFileLine
  { file := file
  , totalInsertions := file.foldl (fun i e => i + e.insertions.getD 0) 0
  , totalDeletions := file.foldl (fun i e => i + e.deletions.getD 0) 0 }

/-- The parser exactly as the claim words it: split into lines, discard
empty lines, split each remaining line on tab characters — with no
trimming of lines or of fields. -/
def claimParseLine (l : String) : FileStat :=
  let fs := jsSplit '\t' l
  { path := fs[2]?
  , insertions := match fs[0]? with | some f => parseCount f | none => none
  , deletions := match fs[1]? with | some f => parseCount f | none => none }

/-- The totals of the claim-worded parser, for comparison with
`parseStats`. -/
def claimParseStats (raw : String) : Stats :=
  let file := ((jsSplit '\n' raw).filter (fun l => l != "")).map claimParseLine
  { file := file
  , totalInsertions := file.foldl (fun i e => i + e.insertions.getD 0) 0
  , totalDeletions := file.foldl (fun i e => i + e.deletions.getD 0) 0 }

/-- `c2` counterexample: on the single line `"3 \t1\tf.txt"` — whose
first tab-split field `"3 "` carries a trailing space and so does not
consist only of decimal digits — the code still parses insertions as
`3`, because it trims each field first; the claim as stated (no field
trimming, null for any non-all-digit field) predicts `null` and so
fails on the code. -/
theorem c2_counterexample :
    (parseStats "3 \t1\tf.txt").file = [⟨some "f.txt", some 3, some 1⟩] ∧
    (claimParseStats "3 \t1\tf.txt").file = [⟨some "f.txt", none, some 1⟩] ∧
    parseStats "3 \t1\tf.txt" ≠ claimParseStats "3 \t1\tf.txt" := by decide

theorem foldl_add_eq_sum {α : Type} (f : α → Nat) (l : List α) (n : Nat) :
    l.foldl (fun i e => i + f e) n = n + (l.map f).sum := by
  induction l generalizing n with
  | nil => simp
  | cons x l ih => simp [ih, Nat.add_assoc]

/-- `c2` amended: the code trims each line before the emptiness test
and each tab-split field before the digit test; a count parses as an
integer exactly when the (trimmed) field is a non-empty run of decimal
digits and is null otherwise; the totals are the sums of the per-file
counts with null as zero; and the spec's three-line example parses
exactly as the claim states. -/
theorem c2_numstat_amended :
    (∀ f : String, (parseCount f).isSome ↔ (f ≠ "" ∧ ∀ c ∈ f.data, c.isDigit)) ∧
    (∀ raw, (parseStats raw).totalInsertions =
        ((parseStats raw).file.map (fun e => e.insertions.getD 0)).sum ∧
      (parseStats raw).totalDeletions =
        ((parseStats raw).file.map (fun e => e.deletions.getD 0)).sum) ∧
    parseStats "3\t0\tfoo.txt\n-\t-\tbinary.bin\n0\t5\tbar.txt" =
      ⟨[⟨some "foo.txt", some 3, some 0⟩,
        ⟨some "binary.bin", none, none⟩,
        ⟨some "bar.txt", some 0, some 5⟩], 3, 5⟩ := by
  refine ⟨fun f => ?_, fun raw => ?_, by decide⟩
  · rw [parseCount]
    split_ifs with h
    · simp only [Option.isSome_some, true_iff]
      constructor
      · intro he
        rw [he] at h
        exact absurd h.1 (by decide)
      · intro c hc
        exact List.all_eq_true.mp h.2 c hc
    · simp only [Option.isSome_none, Bool.false_eq_true, false_iff, not_and]
      intro hne hdig
      apply h
      constructor
      · have hd : f.data ≠ [] := fun hnil => hne (String.ext hnil)
        exact List.length_pos.mpr hd
      · exact List.all_eq_true.mpr hdig
  · constructor <;>
      simp [parseStats, foldl_add_eq_sum]

/-! ## Classifier (src/main.js lines 98–99)

    commitDetails.isPR = (/^\s*(Merged\s+)?PR\s+\d+:/mi).test(subject);
    commitDetails.isMerge = !commitDetails.isPR && (/Merge/mi).test(subject);

Both regular expressions carry the `m` (multiline) and `i`
(ignore-case) flags; `m` lets `^` match at the start of the string and
after any line terminator.  They are embedded as executable matchers;
case-insensitivity is modelled by `Char.toLower`, exact for the ASCII
letters the patterns contain.  The greedy quantifiers of the `isPR`
pattern never need backtracking, because whitespace, digits and the
letters that can follow each run are disjoint character classes. -/

/-- Strip a case-insensitive literal pattern from the head of the text,
returning the remainder on success. -/
def stripCI : List Char → List Char → Option (List Char)
  | [], cs => some cs
  | _ :: _, [] => none
  | p :: ps, c :: cs => if p.toLower = c.toLower then stripCI ps cs else none

/-- `\s+`: at least one whitespace character, consumed greedily. -/
def wsPlus : List Char → Option (List Char)
  | [] => none
  | c :: cs => if isJsSpace c then some (cs.dropWhile isJsSpace) else none

/-- `\d+`: at least one decimal digit, consumed greedily. -/
def digitsPlus : List Char → Option (List Char)
  | [] => none
  | c :: cs => if c.isDigit then some (cs.dropWhile Char.isDigit) else none

/-- `PR\s+\d+:` at the current position. -/
def matchPRCore (cs : List Char) : Bool :=
  match stripCI ['P', 'R'] cs with
  | none => false
  | some r1 =>
    match wsPlus r1 with
    | none => false
    | some r2 =>
      match digitsPlus r2 with
      | none => false
      | some r3 =>
        match r3 with
        | ':' :: _ => true
        | _ => false

/-- `\s*(Merged\s+)?PR\s+\d+:` anchored at the current position. -/
def matchPRAt (cs : List Char) : Bool :=
  let cs1 := cs.dropWhile isJsSpace
  (match stripCI ['M', 'e', 'r', 'g', 'e', 'd'] cs1 with
   | some r =>
     match wsPlus r with
     | some r2 => matchPRCore r2
     | none => false
   | none => false) ||
  matchPRCore cs1

/-- The multiline anchor: try `matchPRAt` after every line terminator. -/
def scanLinesPR : List Char → Bool
  | [] => false
  | c :: rest => (isLineTerm c && matchPRAt rest) || scanLinesPR rest

/-- `(/^\s*(Merged\s+)?PR\s+\d+:/mi).test(subject)` (src/main.js 98). -/
def isPR (subject : String) : Bool :=
  matchPRAt subject.data || scanLinesPR subject.data

/-- `Merge` case-insensitively at the current position. -/
def matchMergeAt (cs : List Char) : Bool :=
  (stripCI ['M', 'e', 'r', 'g', 'e'] cs).isSome

/-- `/Merge/mi.test(s)`: the pattern matches somewhere in the string. -/
def scanMerge : List Char → Bool
  | [] => false
  | c :: cs => matchMergeAt (c :: cs) || scanMerge cs

/-- `isMerge` (src/main.js 99): gated on `isPR` being false. -/
def isMerge (subject : String) : Bool :=
  !isPR subject && scanMerge subject.data

/-- `c3` counterexample: the `isPR` regex carries the multiline flag,
so on the subject `"a\nPR 1: x"` — which does not begin with the
pattern even after optional leading whitespace (`matchPRAt` is the
anchored begins-with reading, and it is false here) — `isPR` is
nevertheless true, because the anchor also matches right after the
embedded newline.  The claim as stated is therefore false on the code. -/
theorem c3_counterexample :
    isPR "a\nPR 1: x" = true ∧ matchPRAt ("a\nPR 1: x").data = false := by decide

theorem scanLinesPR_eq_false {cs : List Char}
    (h : ∀ c ∈ cs, isLineTerm c = false) : scanLinesPR cs = false := by
  induction cs with
  | nil => rfl
  | cons c cs ih =>
    rw [scanLinesPR, h c (List.mem_cons_self c cs),
      ih (fun x hx => h x (List.mem_cons_of_mem c hx))]
    rfl

theorem stripCI_isSome (ps : List Char) : ∀ cs : List Char,
    (stripCI ps cs).isSome = true ↔
    ∃ rest, cs.map Char.toLower = ps.map Char.toLower ++ rest := by
  induction ps with
  | nil =>
    intro cs
    simp only [stripCI, Option.isSome_some, List.map_nil, List.nil_append, true_iff]
    exact ⟨cs.map Char.toLower, rfl⟩
  | cons p ps ih =>
    intro cs
    cases cs with
    | nil => simp [stripCI]
    | cons c cs =>
      rw [stripCI]
      by_cases hpc : p.toLower = c.toLower
      · rw [if_pos hpc]
        rw [ih cs]
        constructor
        · rintro ⟨rest, hr⟩
          exact ⟨rest, by simp [hr, hpc]⟩
        · rintro ⟨rest, hr⟩
          simp only [List.map_cons, List.cons_append, List.cons.injEq] at hr
          exact ⟨rest, hr.2⟩
      · rw [if_neg hpc]
        simp only [Option.isSome_none, Bool.false_eq_true, false_iff, not_exists]
        intro rest hr
        simp only [List.map_cons, List.cons_append, List.cons.injEq] at hr
        exact hpc hr.1.symm

theorem scanMerge_iff (cs : List Char) :
    scanMerge cs = true ↔
    ∃ pre post, cs.map Char.toLower =
      pre ++ ('m' :: 'e' :: 'r' :: 'g' :: 'e' :: post) := by
  have hpat : (['M', 'e', 'r', 'g', 'e'].map Char.toLower) =
      ['m', 'e', 'r', 'g', 'e'] := by decide
  induction cs with
  | nil =>
    simp only [scanMerge, Bool.false_eq_true, false_iff, not_exists]
    intro pre post h
    exact absurd h.symm (List.append_ne_nil_of_right_ne_nil pre (by simp))
  | cons c cs ih =>
    rw [scanMerge, Bool.or_eq_true]
    constructor
    · rintro (hm | hrec)
      · rw [matchMergeAt] at hm
        obtain ⟨rest, hr⟩ := (stripCI_isSome _ _).mp hm
        rw [hpat] at hr
        exact ⟨[], rest, by simpa using hr⟩
      · obtain ⟨pre, post, hp⟩ := ih.mp hrec
        exact ⟨c.toLower :: pre, post, by simp [hp]⟩
    · rintro ⟨pre, post, hp⟩
      cases pre with
      | nil =>
        left
        rw [matchMergeAt]
        apply (stripCI_isSome _ _).mpr
        rw [hpat]
        exact ⟨post, by simpa using hp⟩
      | cons x pre =>
        right
        apply ih.mpr
        refine ⟨pre, post, ?_⟩
        simp only [List.map_cons, List.cons_append, List.cons.injEq] at hp
        exact hp.2

/-- The spec's third example subject, `Merge branch` followed by a
single-quoted branch name. -/
def subjMergeBranch : String :=
  String.mk ['M', 'e', 'r', 'g', 'e', ' ', 'b', 'r', 'a', 'n', 'c', 'h', ' ',
    '\'', 'd', 'e', 'v', '\'']

/-- `c3` amended: the `isPR` pattern is anchored at the start of the
subject or immediately after any line terminator (multiline flag); on
subjects containing no line terminator this is exactly the claim's
"begins (after optional leading whitespace) with" reading.  `isMerge`
is true exactly when `isPR` is false and the lowercased subject
contains the substring `merge`; the two flags are never both true; and
the four example subjects classify exactly as the claim states. -/
theorem c3_classifier_amended :
    (∀ s : String, (∀ c ∈ s.data, isLineTerm c = false) →
      isPR s = matchPRAt s.data) ∧
    (∀ s : String, isMerge s = true ↔
      (isPR s = false ∧ ∃ pre post, s.data.map Char.toLower =
        pre ++ ('m' :: 'e' :: 'r' :: 'g' :: 'e' :: post))) ∧
    (∀ s : String, ¬(isPR s = true ∧ isMerge s = true)) ∧
    (isPR "PR 42: fix bug" = true ∧ isMerge "PR 42: fix bug" = false) ∧
    (isPR "Merged PR 7: cleanup" = true ∧ isMerge "Merged PR 7: cleanup" = false) ∧
    (isPR subjMergeBranch = false ∧ isMerge subjMergeBranch = true) ∧
    (isPR "Add feature X" = false ∧ isMerge "Add feature X" = false) := by
  refine ⟨fun s h => ?_, fun s => ?_, fun s => ?_, by decide, by decide,
    by decide, by decide⟩
  · rw [isPR, scanLinesPR_eq_false h, Bool.or_false]
  · rw [isMerge, Bool.and_eq_true, Bool.not_eq_true', scanMerge_iff]
  · rintro ⟨hpr, hmg⟩
    rw [isMerge, hpr] at hmg
    simp at hmg

/-- Witness for the conditional first conjunct of
`c3_classifier_amended`, instantiated at a newline-free subject. -/
theorem c3_classifier_amended_witness :
    isPR "Add feature X" = matchPRAt ("Add feature X").data :=
  c3_classifier_amended.1 "Add feature X" (by decide)

/-! ## Composite identifier (src/main.js line 102)

    commitDetails._id =
      `${commitDetails.repo}-${commitDetails.remote}-${commitDetails.hash}`;
-/

/-- The `_id` template literal, built from the record's `repo`,
`remote` and `hash` fields. -/
def mkId (rec : CommitRec) : String :=
  rec.repo ++ "-" ++ rec.remote ++ "-" ++ rec.hash

/-- `c5`: the `_id` is a pure function of repo, remote and hash — two
records agreeing on those three fields (whatever their branch lists)
receive the same `_id`, so re-runs over the same repository, remote and
commit hash always assign the same identifier. -/
theorem c5_id_deterministic (a b : CommitRec)
    (hrepo : a.repo = b.repo) (hremote : a.remote = b.remote)
    (hhash : a.hash = b.hash) : mkId a = mkId b := by
  rw [mkId, mkId, hrepo, hremote, hhash]

/-- Witness for `c5_id_deterministic`: two records differing only in
their branch lists receive the same `_id`. -/
theorem c5_id_deterministic_witness :
    mkId ⟨"repo", "origin", "abc", ["a"]⟩ = mkId ⟨"repo", "origin", "abc", ["b"]⟩ :=
  c5_id_deterministic ⟨"repo", "origin", "abc", ["a"]⟩
    ⟨"repo", "origin", "abc", ["b"]⟩ rfl rfl rfl

/-- `c9`: the `_id` joins repo, remote and hash with single hyphens,
and the join is not injective: repo `a-b` with remote `c` collides with
repo `a` with remote `b-c` for every hash, although the repo/remote
pairs differ. -/
theorem c9_id_not_injective :
    (∀ rec : CommitRec, mkId rec = rec.repo ++ "-" ++ rec.remote ++ "-" ++ rec.hash) ∧
    (∀ h : String, mkId ⟨"a-b", "c", h, []⟩ = mkId ⟨"a", "b-c", h, []⟩) ∧
    ¬(("a-b" : String) = "a" ∧ ("c" : String) = "b-c") := by
  refine ⟨fun rec => rfl, fun h => ?_, by decide⟩
  apply String.ext
  simp only [mkId, String.data_append]
  rfl

/-! ## CLI defaults (src/main.js lines 13–27) -/

/-- The four CLI parameters as argparse hands them to `main`: `none`
models null/undefined (flag absent), `some ""` an explicit empty
string — both are falsy in JavaScript. -/
structure Args where
  repo : Option String
  remote : Option String
  mongo : Option String
  db : Option String

/-- JavaScript falsiness of a string-valued parameter. -/
def falsyStr : Option String → Bool
  | none => true
  | some s => s = ""

/-- `new Date().toISOString().replace(/[-:.]/g, '')` applied to the
given timestamp text (src/main.js 26). -/
def defaultDb (now : String) : String :=
  "gitalyze-" ++
    String.mk (now.data.filter (fun c => !(c = '-' || c = ':' || c = '.')))

/-- The configuration after defaulting. -/
structure Config where
  repoPath : String
  remoteName : String
  mongoUri : String
  mongoDb : String
deriving DecidableEq

/-- The defaulting block (src/main.js 13–27).  `now` stands for the
UTC ISO timestamp `new Date().toISOString()` produces, an effect of
the environment. -/
def applyDefaults (a : Args) (now : String) : Config :=
  { repoPath := if falsyStr a.repo then "." else a.repo.getD ""
  , remoteName := if falsyStr a.remote then "origin" else a.remote.getD ""
  , mongoUri := if falsyStr a.mongo then "mongodb://localhost:27017" else a.mongo.getD ""
  , mongoDb := if falsyStr a.db then defaultDb now else a.db.getD "" }

/-- `c8`: whenever a CLI parameter is falsy, the corresponding default
is taken: path `"."`, remote `"origin"`, connection URI
`"mongodb://localhost:27017"`, and database name `"gitalyze-"`
followed by the timestamp with every `-`, `:` and `.` removed.  The
defaults are computed before any other work (`applyDefaults` is the
first step of `mainModel` below). -/
theorem c8_defaults (a : Args) (now : String) :
    (falsyStr a.repo = true → (applyDefaults a now).repoPath = ".") ∧
    (falsyStr a.remote = true → (applyDefaults a now).remoteName = "origin") ∧
    (falsyStr a.mongo = true →
      (applyDefaults a now).mongoUri = "mongodb://localhost:27017") ∧
    (falsyStr a.db = true → (applyDefaults a now).mongoDb =
      "gitalyze-" ++
        String.mk (now.data.filter (fun c => !(c = '-' || c = ':' || c = '.')))) := by
  refine ⟨fun h => ?_, fun h => ?_, fun h => ?_, fun h => ?_⟩ <;>
    simp [applyDefaults, defaultDb, h]

/-- Witness for `c8_defaults` with one absent and one empty-string
parameter of each kind and a concrete timestamp. -/
theorem c8_defaults_witness :
    (applyDefaults ⟨none, some "", none, some ""⟩
      "2026-10-11T12:00:00.000Z").repoPath = "." ∧
    (applyDefaults ⟨none, some "", none, some ""⟩
      "2026-10-11T12:00:00.000Z").remoteName = "origin" ∧
    (applyDefaults ⟨none, some "", none, some ""⟩
      "2026-10-11T12:00:00.000Z").mongoUri = "mongodb://localhost:27017" ∧
    (applyDefaults ⟨none, some "", none, some ""⟩
      "2026-10-11T12:00:00.000Z").mongoDb =
      "gitalyze-" ++
        String.mk (("2026-10-11T12:00:00.000Z").data.filter
          (fun c => !(c = '-' || c = ':' || c = '.'))) :=
  have h := c8_defaults ⟨none, some "", none, some ""⟩ "2026-10-11T12:00:00.000Z"
  ⟨h.1 (by decide), h.2.1 (by decide), h.2.2.1 (by decide), h.2.2.2 (by decide)⟩

/-! ## Pipeline model and top level (src/main.js 7–9, 29–139, 174–179)

The external collaborators are oracles: `git(args, cwd)` returns the
trimmed standard output or fails (non-zero exit), the database
connection may fail, and each acknowledged upsert may fail.  `main` is
the straight-line composition of these effects with the pure parsing
functions above; there is no catch anywhere, so the model is a plain
`Except` pipeline. -/

/-- An author/committer identity triple (src/main.js 84–93).  The
`date` field keeps the raw timestamp text; `new Date(...)` parsing is
an environment-library conversion outside the model. -/
structure Ident where
  email : String
  name : String
  date : String
deriving DecidableEq

/-- The fully assembled commit document (src/main.js 82–120).
`mongoId` models the `_id` field. -/
structure FullRec where
  repo : String
  remote : String
  hash : String
  branches : List String
  author : Ident
  committer : Ident
  subject : String
  body : String
  isPR : Bool
  isMerge : Bool
  mongoId : String
  stats : Stats
deriving DecidableEq

/-- The effect oracles of one run. -/
structure Env where
  git : String → String → Except String String
  connect : String → Except String Unit
  write : String → FullRec → Except String Unit

def cfgCmd (remote : String) : String := "config --get remote." ++ remote ++ ".url"

def fetchAllCmd : String := "fetch --all --prune"

def branchCmd : String := "branch -r --format='%(refname)'"

def revCmd (remote b : String) : String :=
  "rev-list --full-history " ++ remote ++ "/" ++ b

def showCmd (fmt h : String) : String := "show -s --format='" ++ fmt ++ "' " ++ h

def numstatCmd (h : String) : String := "show --format='' --numstat " ++ h

/-- The per-commit show formats, in the order issued (src/main.js
84–95). -/
def showFormats : List String :=
  ["%ae", "%an", "%ai", "%ce", "%cn", "%ci", "%s", "%b"]

/-- Fetch all metadata of one commit record, classify, build the
document and store it (src/main.js 82–133). -/
def fetchCommit (env : Env) (repoPath mongoDb : String) (rec : CommitRec) :
    Except String Unit := do
  let ae ← env.git (showCmd "%ae" rec.hash) repoPath
  let an ← env.git (showCmd "%an" rec.hash) repoPath
  let adate ← env.git (showCmd "%ai" rec.hash) repoPath
  let ce ← env.git (showCmd "%ce" rec.hash) repoPath
  let cn ← env.git (showCmd "%cn" rec.hash) repoPath
  let cdate ← env.git (showCmd "%ci" rec.hash) repoPath
  let subject ← env.git (showCmd "%s" rec.hash) repoPath
  let body ← env.git (showCmd "%b" rec.hash) repoPath
  let nums ← env.git (numstatCmd rec.hash) repoPath
  env.write mongoDb
    { repo := rec.repo, remote := rec.remote, hash := rec.hash
    , branches := rec.branches
    , author := ⟨ae, an, adate⟩, committer := ⟨ce, cn, cdate⟩
    , subject := subject, body := body
    , isPR := isPR subject, isMerge := isMerge subject
    , mongoId := mkId rec, stats := parseStats nums }

/-- The whole `main` (src/main.js 11–139) over the effect oracles.
`console.log` calls and the progress bar are pure observations, and
`client.close()` yields no observable value; they are omitted. -/
def mainModel (env : Env) (repoArg remoteArg mongoArg dbArg : Option String)
    (now : String) : Except String Unit := do
  let cfg := applyDefaults ⟨repoArg, remoteArg, mongoArg, dbArg⟩ now
  env.connect cfg.mongoUri
  let repoUrl ← env.git (cfgCmd cfg.remoteName) cfg.repoPath
  let repoName := (jsSplit '/' repoUrl).getLastD ""
  let _ ← env.git fetchAllCmd cfg.repoPath
  let rawBranches ← env.git branchCmd cfg.repoPath
  let branches := branchLister rawBranches cfg.remoteName
  let m ← branches.foldlM
    (fun m b => do
      let raw ← env.git (revCmd cfg.remoteName b) cfg.repoPath
      pure (walkBranch repoName cfg.remoteName b raw m))
    ([] : AList)
  m.forM (fun p => fetchCommit env cfg.repoPath cfg.mongoDb p.2)

/-- The top level (src/main.js 174–179): exit code 0 from `.then` after
a successful run, exit code 1 from `.catch` after logging the error. -/
def exitCode : Except String Unit → Nat
  | .ok _ => 0
  | .error _ => 1

theorem except_bind_ok {ε α β : Type} {x : Except ε α} {f : α → Except ε β} {v : β}
    (h : x >>= f = .ok v) : ∃ w, x = .ok w ∧ f w = .ok v := by
  cases x with
  | ok w => exact ⟨w, rfl, h⟩
  | error e =>
    exfalso
    simp only [Bind.bind, Except.bind] at h
    cases h

theorem foldlM_rev_ok {env : Env} {remote path repoName : String} :
    ∀ (bs : List String) (m0 m1 : AList),
      bs.foldlM (fun m b => do
          let raw ← env.git (revCmd remote b) path
          pure (walkBranch repoName remote b raw m)) m0 = .ok m1 →
      ∀ b ∈ bs, ∃ raw, env.git (revCmd remote b) path = .ok raw := by
  intro bs
  induction bs with
  | nil => intro m0 m1 _ b hb; cases hb
  | cons x bs ih =>
    intro m0 m1 h b hb
    rw [List.foldlM_cons] at h
    obtain ⟨m', hx, hrest⟩ := except_bind_ok h
    rcases List.mem_cons.mp hb with rfl | hb'
    · obtain ⟨raw, hraw, -⟩ := except_bind_ok hx
      exact ⟨raw, hraw⟩
    · exact ih m' m1 hrest b hb'

theorem forM_ok {α : Type} {g : α → Except String Unit} :
    ∀ (l : List α), l.forM g = .ok () → ∀ x ∈ l, g x = .ok () := by
  intro l
  induction l with
  | nil => intro _ x hx; cases hx
  | cons y l ih =>
    intro h x hx
    rw [List.forM_cons'] at h
    obtain ⟨u, hy, hrest⟩ := except_bind_ok h
    cases u
    rcases List.mem_cons.mp hx with rfl | hx'
    · exact hy
    · exact ih hrest x hx'

theorem fetchCommit_ok {env : Env} {repoPath mongoDb : String} {rec : CommitRec}
    (h : fetchCommit env repoPath mongoDb rec = .ok ()) :
    (∀ fmt ∈ showFormats,
      ∃ v, env.git (showCmd fmt rec.hash) repoPath = .ok v) ∧
    (∃ v, env.git (numstatCmd rec.hash) repoPath = .ok v) ∧
    (∃ doc, env.write mongoDb doc = .ok () ∧ doc.mongoId = mkId rec) := by
  rw [fetchCommit] at h
  obtain ⟨ae, hae, h⟩ := except_bind_ok h
  obtain ⟨an, han, h⟩ := except_bind_ok h
  obtain ⟨adate, hadate, h⟩ := except_bind_ok h
  obtain ⟨ce, hce, h⟩ := except_bind_ok h
  obtain ⟨cn, hcn, h⟩ := except_bind_ok h
  obtain ⟨cdate, hcdate, h⟩ := except_bind_ok h
  obtain ⟨subject, hsubject, h⟩ := except_bind_ok h
  obtain ⟨body, hbody, h⟩ := except_bind_ok h
  obtain ⟨nums, hnums, h⟩ := except_bind_ok h
  refine ⟨?_, ⟨nums, hnums⟩, ⟨_, h, rfl⟩⟩
  intro fmt hfmt
  simp only [showFormats, List.mem_cons, List.not_mem_nil, or_false] at hfmt
  rcases hfmt with rfl | rfl | rfl | rfl | rfl | rfl | rfl | rfl
  · exact ⟨ae, hae⟩
  · exact ⟨an, han⟩
  · exact ⟨adate, hadate⟩
  · exact ⟨ce, hce⟩
  · exact ⟨cn, hcn⟩
  · exact ⟨cdate, hcdate⟩
  · exact ⟨subject, hsubject⟩
  · exact ⟨body, hbody⟩

/-- `c7`: the top level exits 0 exactly on a successful run and 1
exactly on an error; and no error is handled locally — a successful
run certifies that every consulted effect succeeded: the connection,
the config/fetch/branch queries, the rev-list query of every listed
branch, and — for the commit map the run actually built from those
outputs (pinned by its fold equation on the returned repo url and
branch listing) — every per-commit metadata query and write, via
`fetchCommit`. -/
theorem c7_error_propagation (env : Env)
    (repoArg remoteArg mongoArg dbArg : Option String) (now : String) :
    (∀ r : Except String Unit, exitCode r = 0 ↔ r = .ok ()) ∧
    (∀ r : Except String Unit, exitCode r = 1 ↔ ∃ msg, r = .error msg) ∧
    (∀ repoPath mongoDb rec, fetchCommit env repoPath mongoDb rec = .ok () →
      (∀ fmt ∈ showFormats,
        ∃ v, env.git (showCmd fmt rec.hash) repoPath = .ok v) ∧
      (∃ v, env.git (numstatCmd rec.hash) repoPath = .ok v) ∧
      (∃ doc, env.write mongoDb doc = .ok () ∧ doc.mongoId = mkId rec)) ∧
    (mainModel env repoArg remoteArg mongoArg dbArg now = .ok () →
      env.connect (applyDefaults ⟨repoArg, remoteArg, mongoArg, dbArg⟩ now).mongoUri
          = .ok () ∧
      (∃ repoUrl, env.git
          (cfgCmd (applyDefaults ⟨repoArg, remoteArg, mongoArg, dbArg⟩ now).remoteName)
          (applyDefaults ⟨repoArg, remoteArg, mongoArg, dbArg⟩ now).repoPath
            = .ok repoUrl ∧
        (∃ v, env.git fetchAllCmd
          (applyDefaults ⟨repoArg, remoteArg, mongoArg, dbArg⟩ now).repoPath = .ok v) ∧
        (∃ rawB, env.git branchCmd
            (applyDefaults ⟨repoArg, remoteArg, mongoArg, dbArg⟩ now).repoPath
              = .ok rawB ∧
          (∀ b ∈ branchLister rawB
              (applyDefaults ⟨repoArg, remoteArg, mongoArg, dbArg⟩ now).remoteName,
            ∃ raw, env.git (revCmd
                (applyDefaults ⟨repoArg, remoteArg, mongoArg, dbArg⟩ now).remoteName b)
              (applyDefaults ⟨repoArg, remoteArg, mongoArg, dbArg⟩ now).repoPath
                = .ok raw) ∧
          (∃ m : AList,
            (branchLister rawB
                (applyDefaults ⟨repoArg, remoteArg, mongoArg, dbArg⟩ now).remoteName).foldlM
              (fun acc b => do
                let raw ← env.git (revCmd
                    (applyDefaults ⟨repoArg, remoteArg, mongoArg, dbArg⟩ now).remoteName b)
                  (applyDefaults ⟨repoArg, remoteArg, mongoArg, dbArg⟩ now).repoPath
                pure (walkBranch ((jsSplit '/' repoUrl).getLastD "")
                  (applyDefaults ⟨repoArg, remoteArg, mongoArg, dbArg⟩ now).remoteName
                  b raw acc))
              ([] : AList) = .ok m ∧
            ∀ p ∈ m,
              fetchCommit env
                (applyDefaults ⟨repoArg, remoteArg, mongoArg, dbArg⟩ now).repoPath
                (applyDefaults ⟨repoArg, remoteArg, mongoArg, dbArg⟩ now).mongoDb
                p.2 = .ok ())))) := by
  refine ⟨fun r => ?_, fun r => ?_, fun repoPath mongoDb rec h => fetchCommit_ok h,
    fun h => ?_⟩
  · cases r with
    | ok u => cases u; simp [exitCode]
    | error e => simp [exitCode]
  · cases r with
    | ok u => cases u; simp [exitCode]
    | error e => exact ⟨fun _ => ⟨e, rfl⟩, fun _ => rfl⟩
  · rw [mainModel] at h
    obtain ⟨u0, hconn, h⟩ := except_bind_ok h
    obtain ⟨repoUrl, hcfg, h⟩ := except_bind_ok h
    obtain ⟨v0, hfetch, h⟩ := except_bind_ok h
    obtain ⟨rawB, hbranch, h⟩ := except_bind_ok h
    obtain ⟨m, hfold, hforM⟩ := except_bind_ok h
    cases u0
    exact ⟨hconn, repoUrl, hcfg, ⟨v0, hfetch⟩,
      rawB, hbranch, foldlM_rev_ok _ _ _ hfold,
      m, hfold, forM_ok m hforM⟩

/-- Oracle environment in which every effect succeeds, used by the
`c7` witness. -/
def envOk : Env := ⟨fun _ _ => .ok "", fun _ => .ok (), fun _ _ => .ok ()⟩

/-- Witness for `c7_error_propagation`: under `envOk` the run succeeds,
the process exits 0, and the success-certifies-all-effects implication
applies. -/
theorem c7_error_propagation_witness :
    exitCode (mainModel envOk none none none none "2026") = 0 ∧
    envOk.connect (applyDefaults ⟨none, none, none, none⟩ "2026").mongoUri
      = .ok () :=
  have h := c7_error_propagation envOk none none none none "2026"
  have hmain : mainModel envOk none none none none "2026" = .ok () := rfl
  ⟨(h.1 (mainModel envOk none none none none "2026")).mpr hmain, (h.2.2.2 hmain).1⟩

end Gitalyze
